import Mathlib

/-!
Verification of the `imstr` text-view library (`src/string.rs`).

The core type `ImString<S>` is a pair of a storage handle into a shared
`String` buffer and a byte-offset range.  We embed the reference-counted
backends (`Threadsafe = Arc<String>`, `Local = Rc<String>`): a `Store` holds
the live buffers together with their reference counts, a view holds the index
of its buffer and its offset range.  `Arc::get_mut`/`Rc::get_mut` succeed
exactly when the reference count is one, which is the single ownership signal
the library branches on.

Rust strings are modelled as their UTF-8 byte lists (`Str = List Nat`);
`char` values are modelled by their Unicode scalar value together with the
standard UTF-8 encoding function.  Standard-library `String` operations that
can panic (`truncate`, `insert`, `insert_str` on a non-boundary index) are
modelled as `Option`-returning functions, `none` meaning a panic.
-/

/-- Model of a Rust `String`/`str` as its list of UTF-8 bytes. -/
abbrev Str := List Nat

/-- Model of the heap of reference-counted string buffers: `bufs` holds the
buffer contents, `refs` the matching reference counts (`Arc`/`Rc` strong
counts).  A storage handle is an index into this heap. -/
structure Store where
  bufs : List Str
  refs : List Nat
deriving DecidableEq

/-- Model of `handle.get()`: the buffer a handle points at. -/
def Store.get (st : Store) (i : Nat) : Str := st.bufs.getD i []

/-- Model of the reference count of a handle. -/
def Store.refOf (st : Store) (i : Nat) : Nat := st.refs.getD i 0

/-- Model of whether `self.string.get_mut()` returns `Some`: for the
reference-counted backends this holds exactly when this handle is the sole
owner of its buffer. -/
def Store.getMutOk (st : Store) (i : Nat) : Bool := st.refOf i == 1

/-- Overwrites the buffer a handle points at (in-place mutation through
`get_mut`). -/
def Store.setBuf (st : Store) (i : Nat) (b : Str) : Store :=
  { st with bufs := st.bufs.set i b }

/-- Bumps the reference count of a handle (effect of `S::clone`). -/
def Store.incRef (st : Store) (i : Nat) : Store :=
  { st with refs := st.refs.set i (st.refOf i + 1) }

/-- Drops one reference to a handle (effect of overwriting `self.string`). -/
def Store.decRef (st : Store) (i : Nat) : Store :=
  { st with refs := st.refs.set i (st.refOf i - 1) }

/-- Model of `ImString`: the `string` field is the storage handle (an index
into the store), the `offset` field is the byte range `(start, end)` of the
view into the backing buffer (`offset.1` = `offset.start`,
`offset.2` = `offset.end`). -/
structure ImString where
  string : Nat
  offset : Nat × Nat
deriving DecidableEq

/-- Model of `ImString::as_bytes` (and of `as_str`, which is the same byte
span asserted to be UTF-8): `&self.string.get().as_bytes()[self.offset]`,
that is, the backing bytes from `offset.start` (inclusive) to `offset.end`
(exclusive). -/
def ImString.as_bytes (st : Store) (v : ImString) : Str :=
  ((Store.get st v.string).take v.offset.2).drop v.offset.1

/-- Model of `ImString::len`, which is `self.offset.len()`, i.e.
`offset.end - offset.start` (`Nat` subtraction matches the `usize` range
length for the valid case `start ≤ end`). -/
def ImString.len (v : ImString) : Nat := v.offset.2 - v.offset.1

/-- Model of Rust `str::is_char_boundary(i)`: true at `0` and at the total
length, false beyond the length, and otherwise true exactly when the byte at
`i` is not a UTF-8 continuation byte (`128 ≤ b < 192`). -/
def isCharBoundary (s : Str) (i : Nat) : Bool :=
  if i == 0 then true
  else
    match s.get? i with
    | none => i == s.length
    | some b => !(decide (128 ≤ b) && decide (b < 192))

/-- Model of Rust `String::truncate(n)`: a no-op when `n` exceeds the current
length, otherwise it keeps the first `n` bytes, panicking (`none`) when `n`
is not a char boundary. -/
def stringTruncate (s : Str) (n : Nat) : Option Str :=
  if n ≤ s.length then
    if isCharBoundary s n then some (s.take n) else none
  else some s

/-- Model of Rust `String::insert`/`String::insert_str` at byte index `i`:
panics (`none`) unless `i` is a char boundary (which also forces
`i ≤ length`); otherwise splices the new bytes in at `i`. -/
def stringInsert (s : Str) (i : Nat) (t : Str) : Option Str :=
  if isCharBoundary s i then some (s.take i ++ t ++ s.drop i) else none

/-- Standard UTF-8 encoding of a Unicode scalar value, as used by
`String::push(c)`. -/
def utf8Encode (c : Nat) : Str :=
  if c < 128 then [c]
  else if c < 2048 then [192 + c / 64, 128 + c % 64]
  else if c < 65536 then [224 + c / 4096, 128 + (c / 64) % 64, 128 + c % 64]
  else [240 + c / 262144, 128 + (c / 4096) % 64, 128 + (c / 64) % 64, 128 + c % 64]

/-- Model of `ImString::from_std_string` (and hence of `From<&str>` /
`From<String>` / `new`): allocates a fresh uniquely-owned buffer and views
all of it (`offset = 0..len`). -/
def ImString.from_std_string (s : Str) (st : Store) : Store × ImString :=
  ({ bufs := st.bufs ++ [s], refs := st.refs ++ [1] },
   { string := st.bufs.length, offset := (0, s.length) })

/-- Model of `Clone for ImString` (derived): the clone holds the same handle
and offset; the shared backend bumps the reference count. -/
def ImString.clone (st : Store) (v : ImString) : Store × ImString :=
  (Store.incRef st v.string, v)

/-- Model of `ImString::unchecked_append(f)`.  When `get_mut` succeeds and
`offset.start == 0` the buffer is taken, truncated to `offset.end`, passed
to `f` and stored back in place; otherwise the visible text is copied, `f`
is applied to the copy, and the result is adopted as a brand-new uniquely
owned handle (dropping one reference to the old handle).  In both cases
`offset` becomes `0..new_len`.  `f` returns `none` when the underlying
`String` edit would panic. -/
def ImString.uncheckedAppendF (f : Str → Option Str) (st : Store) (v : ImString) :
    Option (Store × ImString) :=
  if Store.getMutOk st v.string && v.offset.1 == 0 then
    match stringTruncate (Store.get st v.string) v.offset.2 with
    | none => none
    | some tb =>
      match f tb with
      | none => none
      | some nb =>
        some (Store.setBuf st v.string nb, { string := v.string, offset := (0, nb.length) })
  else
    match f (ImString.as_bytes st v) with
    | none => none
    | some nb =>
      let st1 := Store.decRef st v.string
      some ({ bufs := st1.bufs ++ [nb], refs := st1.refs ++ [1] },
            { string := st1.bufs.length, offset := (0, nb.length) })

/-- Model of `ImString::insert(index, c)` via `unchecked_append`. -/
def ImString.insert (i : Nat) (c : Nat) (st : Store) (v : ImString) :
    Option (Store × ImString) :=
  ImString.uncheckedAppendF (fun s => stringInsert s i (utf8Encode c)) st v

/-- Model of `ImString::insert_str(index, s)` via `unchecked_append`. -/
def ImString.insert_str (i : Nat) (t : Str) (st : Store) (v : ImString) :
    Option (Store × ImString) :=
  ImString.uncheckedAppendF (fun s => stringInsert s i t) st v

/-- Model of `ImString::push(c)` via `unchecked_append`. -/
def ImString.push (c : Nat) (st : Store) (v : ImString) : Option (Store × ImString) :=
  ImString.uncheckedAppendF (fun s => some (s ++ utf8Encode c)) st v

/-- Model of `ImString::push_str(slice)` via `unchecked_append`. -/
def ImString.push_str (t : Str) (st : Store) (v : ImString) : Option (Store × ImString) :=
  ImString.uncheckedAppendF (fun s => some (s ++ t)) st v

/-- Model of `ImString::truncate(length)`: the target length is
`offset.start + length`; when `get_mut` succeeds the backing string is
truncated to it (possibly panicking, `none`); in every case `offset.end` is
clamped to `min offset.end (offset.start + length)`. -/
def ImString.truncate (length : Nat) (st : Store) (v : ImString) :
    Option (Store × ImString) :=
  let target := v.offset.1 + length
  if Store.getMutOk st v.string then
    match stringTruncate (Store.get st v.string) target with
    | none => none
    | some nb =>
      some (Store.setBuf st v.string nb,
            { string := v.string, offset := (v.offset.1, min v.offset.2 target) })
  else
    some (st, { string := v.string, offset := (v.offset.1, min v.offset.2 target) })

/-- Model of `ImString::clear`: clears the backing string when uniquely
owned (`try_modify_unchecked`), then sets `offset = 0..0`. -/
def ImString.clear (st : Store) (v : ImString) : Store × ImString :=
  if Store.getMutOk st v.string then
    (Store.setBuf st v.string [], { string := v.string, offset := (0, 0) })
  else
    (st, { string := v.string, offset := (0, 0) })

/-- Model of the `SliceError` enumeration of `try_slice`. -/
inductive SliceError where
  | StartOutOfBounds
  | EndBeforeStart
  | EndOutOfBounds
  | StartNotAligned
  | EndNotAligned
deriving DecidableEq

/-- Model of `ImString::slice_unchecked` on resolved bounds: a view on the
same handle with `offset = self.offset.start + start .. self.offset.start + end`
(cloning the handle). -/
def ImString.slice_unchecked (v : ImString) (s e : Nat) : ImString :=
  { string := v.string, offset := (v.offset.1 + s, v.offset.1 + e) }

/-- Model of `ImString::try_slice` on resolved bounds `(s, e)` (the claims
speak of the checks after the `RangeBounds` have been resolved to a start and
an end): the five checks in source order, then `slice_unchecked`. -/
def ImString.try_slice (st : Store) (v : ImString) (s e : Nat) :
    Except SliceError ImString :=
  if s > ImString.len v then .error .StartOutOfBounds
  else if e < s then .error .EndBeforeStart
  else if e > ImString.len v then .error .EndOutOfBounds
  else if !(isCharBoundary (ImString.as_bytes st v) s) then .error .StartNotAligned
  else if !(isCharBoundary (ImString.as_bytes st v) e) then .error .EndNotAligned
  else .ok (ImString.slice_unchecked v s e)

/-- Model of a whole `try_slice` call including its effect on the receiver
and the store: the receiver is borrowed immutably (so it is returned
unchanged); on success `slice_unchecked` clones the handle, bumping its
reference count. -/
def ImString.try_slice_call (st : Store) (v : ImString) (s e : Nat) :
    Store × ImString × Except SliceError ImString :=
  match ImString.try_slice st v s e with
  | .ok w => (Store.incRef st v.string, v, .ok w)
  | .error err => (st, v, .error err)

/-- Model of `ImString::try_split_off(position)`, returning the store, the
receiver after the call, and the optional returned view.  The source checks
`position > self.offset.end`, then `self.as_str().is_char_boundary(position)`;
on success the returned view is `position..self.offset.end` on the cloned
handle and the receiver's `offset.end` becomes `position` (note the source
uses `position` directly, without adding `self.offset.start`). -/
def ImString.try_split_off (st : Store) (v : ImString) (position : Nat) :
    Store × ImString × Option ImString :=
  if position > v.offset.2 then (st, v, none)
  else if !(isCharBoundary (ImString.as_bytes st v) position) then (st, v, none)
  else (Store.incRef st v.string,
        { string := v.string, offset := (v.offset.1, position) },
        some { string := v.string, offset := (position, v.offset.2) })

/-- Model of the free function `try_slice_offset(current, candidate)`.  The
two byte slices are given by their start address and length in a flat `Nat`
address space; the source compares the pointer ranges
(`current.start ≤ candidate.start` and `candidate.end ≤ current.end`) and on
containment returns the relative offsets obtained by pointer subtraction. -/
def try_slice_offset (cur cand : Nat × Nat) : Option (Nat × Nat) :=
  let curEnd := cur.1 + cur.2
  let candEnd := cand.1 + cand.2
  if !(decide (cur.1 ≤ cand.1)) || !(decide (candEnd ≤ curEnd)) then none
  else some (cand.1 - cur.1, candEnd - cur.1)

/-- Model of `ImString::try_slice_ref(slice)`: the container passed to
`try_slice_offset` is the *whole* backing buffer
(`self.string.get().as_bytes()`), whose start address is `bufAddr`; the
candidate is an address/length pair.  On containment the result is
`ImString { offset: range, ..self.clone() }`, i.e. the same handle with the
computed offset (the clone's reference-count bump is not observable in any
content claim and is omitted here). -/
def ImString.try_slice_ref (st : Store) (bufAddr : Nat) (v : ImString)
    (cand : Nat × Nat) : Option ImString :=
  (try_slice_offset (bufAddr, (Store.get st v.string).length) cand).map
    (fun r => { string := v.string, offset := r })

/-- Model of `ImString::try_str_ref(string)`: delegates to `try_slice_ref`
on the string's bytes. -/
def ImString.try_str_ref (st : Store) (bufAddr : Nat) (v : ImString)
    (cand : Nat × Nat) : Option ImString :=
  ImString.try_slice_ref st bufAddr v cand

/-- Byte-range extraction helper: the sub-list of `s` from `r.1` (inclusive)
to `r.2` (exclusive), mirroring slice indexing `s[r.1..r.2]`. -/
def extractBytes (s : Str) (r : Nat × Nat) : Str := (s.take r.2).drop r.1

/-- Splits a byte string at every newline byte (10), returning the
`(start, end)` ranges of the segments between newlines, the scan starting
with a segment open at `segStart` and the cursor at position `pos`.  This is
the segment structure underlying Rust `str::split('\n')`. -/
def split_segs : Str → Nat → Nat → List (Nat × Nat)
  | [], segStart, pos => [(segStart, pos)]
  | b :: rest, segStart, pos =>
    if b == 10 then (segStart, pos) :: split_segs rest (pos + 1) (pos + 1)
    else split_segs rest segStart (pos + 1)

/-- Model of Rust `str::split_terminator('\n')` over a whole byte string (as
ranges): like `split('\n')` except that a trailing empty segment is
skipped. -/
def split_term_ranges (s : Str) : List (Nat × Nat) :=
  let segs := split_segs s 0 0
  match segs.getLast? with
  | some r => if r.1 == r.2 then segs.dropLast else segs
  | none => segs

/-- Model of Rust `str::lines` over a byte string, as ranges: split at
newlines with the trailing empty segment skipped, and for every segment that
was actually terminated by a newline (the byte at its end position is 10), a
final carriage-return byte (13) is excluded from the line. -/
def line_ranges (s : Str) : List (Nat × Nat) :=
  (split_term_ranges s).map (fun r =>
    if decide (r.1 < r.2) && s.getD r.2 0 == 10 && s.getD (r.2 - 1) 0 == 13 then
      (r.1, r.2 - 1)
    else r)

/-- Byte contents of the lines of a byte string (the texts produced by
`as_str().lines()`). -/
def line_contents (s : Str) : List Str := (line_ranges s).map (extractBytes s)

/-- Model of `ImString::lines` together with `ImStringIterator::next`: for
each line slice of the visible text, `try_slice_offset` against the whole
backing buffer reconstructs its absolute offset, which for a sub-slice of
`as_str()` beginning at visible position `r.1` is
`offset.start + r.1 .. offset.start + r.2`; each yielded view holds a clone
of the source handle. -/
def ImString.lines (st : Store) (v : ImString) : List ImString :=
  (line_ranges (ImString.as_bytes st v)).map
    (fun r => { string := v.string, offset := (v.offset.1 + r.1, v.offset.1 + r.2) })

/-- Model of `PartialEq for ImString` (all variants compare the visible
text): `self.as_str().eq(other.as_str())`. -/
def ImString.eq (st : Store) (a b : ImString) : Bool :=
  ImString.as_bytes st a == ImString.as_bytes st b

/-- Lexicographic byte-wise comparison, the order `str::cmp` implements. -/
def str_cmp : Str → Str → Ordering
  | [], [] => .eq
  | [], _ :: _ => .lt
  | _ :: _, [] => .gt
  | a :: ta, b :: tb =>
    if a < b then .lt else if b < a then .gt else str_cmp ta tb

/-- Model of `Ord for ImString`: `self.as_str().cmp(other.as_str())`. -/
def ImString.cmp (st : Store) (a b : ImString) : Ordering :=
  str_cmp (ImString.as_bytes st a) (ImString.as_bytes st b)

/-- Model of `Hash for ImString` for an arbitrary hasher `h`: the
implementation delegates to the contained `str`, so the hash is `h` applied
to the visible bytes. -/
def ImString.hash {α : Type} (h : Str → α) (st : Store) (v : ImString) : α :=
  h (ImString.as_bytes st v)

/-- Model of the data-model invariant of a view (spec section 3, and the doc
comment on the `offset` field):
`0 ≤ offset.start ≤ offset.end ≤ length(handle.get())` and both ends lie on
UTF-8 code-point boundaries of the backing buffer. -/
def validView (st : Store) (v : ImString) : Bool :=
  decide (v.offset.1 ≤ v.offset.2) &&
  decide (v.offset.2 ≤ (Store.get st v.string).length) &&
  isCharBoundary (Store.get st v.string) v.offset.1 &&
  isCharBoundary (Store.get st v.string) v.offset.2

/-! Helper lemmas about list indexing and slicing. -/

theorem getD_append_length {α : Type} (l : List α) (x d : α) :
    (l ++ [x]).getD l.length d = x := by
  rw [List.getD_eq_getElem?_getD, List.getElem?_append_right (Nat.le_refl _)]
  simp

theorem getD_set_length {α : Type} (l : List α) (i : Nat) (x d : α)
    (h : i < l.length) : (l.set i x).getD i d = x := by
  rw [List.getD_eq_getElem?_getD, List.getElem?_set_self h]
  rfl

theorem slice_content_eq (buf : Str) (v1 v2 s e : Nat) (h : e ≤ v2 - v1) :
    (buf.take (v1 + e)).drop (v1 + s) = (((buf.take v2).drop v1).take e).drop s := by
  rw [List.drop_take (v1 + e) (v1 + s) buf, List.drop_take v2 v1 buf,
      List.take_take e (v2 - v1) (buf.drop v1), inf_eq_left.mpr h,
      List.drop_take e s (buf.drop v1), List.drop_drop s v1 buf]
  congr 1
  omega

/-- C2: the five `try_slice` checks are performed in the fixed source order
on the resolved bounds, the first failing check deciding the error; in
particular the range `len+1 .. 0` on a non-empty view yields
`StartOutOfBounds` and not `EndBeforeStart`. -/
theorem claim_C2_try_slice_precedence :
    ∀ (st : Store) (v : ImString),
      (∀ s e,
        (s > ImString.len v →
          ImString.try_slice st v s e = .error .StartOutOfBounds) ∧
        (s ≤ ImString.len v → e < s →
          ImString.try_slice st v s e = .error .EndBeforeStart) ∧
        (s ≤ ImString.len v → s ≤ e → e > ImString.len v →
          ImString.try_slice st v s e = .error .EndOutOfBounds) ∧
        (s ≤ ImString.len v → s ≤ e → e ≤ ImString.len v →
          isCharBoundary (ImString.as_bytes st v) s = false →
          ImString.try_slice st v s e = .error .StartNotAligned) ∧
        (s ≤ ImString.len v → s ≤ e → e ≤ ImString.len v →
          isCharBoundary (ImString.as_bytes st v) s = true →
          isCharBoundary (ImString.as_bytes st v) e = false →
          ImString.try_slice st v s e = .error .EndNotAligned)) ∧
      (0 < ImString.len v →
        ImString.try_slice st v (ImString.len v + 1) 0 = .error .StartOutOfBounds) := by
  intro st v
  constructor
  · intro s e
    refine ⟨?_, ?_, ?_, ?_, ?_⟩
    · intro h1
      unfold ImString.try_slice
      rw [if_pos h1]
    · intro h1 h2
      unfold ImString.try_slice
      rw [if_neg (by omega), if_pos h2]
    · intro h1 h2 h3
      unfold ImString.try_slice
      rw [if_neg (by omega), if_neg (by omega), if_pos h3]
    · intro h1 h2 h3 h4
      unfold ImString.try_slice
      rw [if_neg (by omega), if_neg (by omega), if_neg (by omega)]
      simp [h4]
    · intro h1 h2 h3 h4 h5
      unfold ImString.try_slice
      rw [if_neg (by omega), if_neg (by omega), if_neg (by omega)]
      simp [h4, h5]
  · intro h
    unfold ImString.try_slice
    rw [if_pos (by omega)]

/-- Witness for C2: on the view of "h" (length 1), slicing `2..0` (that is
`len+1 .. 0`) reports `StartOutOfBounds` although `end < start` also holds. -/
theorem claim_C2_witness :
    0 < ImString.len ⟨0, (0, 1)⟩ ∧
    ImString.try_slice ⟨[[104]], [1]⟩ ⟨0, (0, 1)⟩ 2 0 =
      .error .StartOutOfBounds :=
  ⟨by decide, (claim_C2_try_slice_precedence ⟨[[104]], [1]⟩ ⟨0, (0, 1)⟩).2 (by decide)⟩

/-- C3: on boundary-aligned in-bounds resolved bounds, `try_slice` succeeds
with a view on the same handle, offset `self.offset.start+s .. self.offset.start+e`,
whose bytes are exactly bytes `s..e` of the receiver's visible text; slicing
`0..len` reproduces the receiver's content. -/
theorem claim_C3_slice_success :
    ∀ (st : Store) (v : ImString) (s e : Nat),
      s ≤ e → e ≤ ImString.len v →
      isCharBoundary (ImString.as_bytes st v) s = true →
      isCharBoundary (ImString.as_bytes st v) e = true →
      ImString.try_slice st v s e = .ok (ImString.slice_unchecked v s e) ∧
      (ImString.slice_unchecked v s e).string = v.string ∧
      (ImString.slice_unchecked v s e).offset = (v.offset.1 + s, v.offset.1 + e) ∧
      ImString.as_bytes st (ImString.slice_unchecked v s e) =
        ((ImString.as_bytes st v).take e).drop s ∧
      ImString.as_bytes st (ImString.slice_unchecked v 0 (ImString.len v)) =
        ImString.as_bytes st v := by
  intro st v s e hse hel hbs hbe
  have content : ∀ s' e', e' ≤ ImString.len v →
      ImString.as_bytes st (ImString.slice_unchecked v s' e') =
        ((ImString.as_bytes st v).take e').drop s' := by
    intro s' e' he'
    unfold ImString.as_bytes ImString.slice_unchecked
    exact slice_content_eq (Store.get st v.string) v.offset.1 v.offset.2 s' e' he'
  refine ⟨?_, rfl, rfl, content s e hel, ?_⟩
  · unfold ImString.try_slice
    rw [if_neg (by omega), if_neg (by omega), if_neg (by omega)]
    simp [hbs, hbe]
  · rw [content 0 (ImString.len v) (Nat.le_refl _), List.drop_zero,
        List.take_of_length_le]
    unfold ImString.as_bytes ImString.len
    simp
    omega

/-- Witness for C3: slicing bytes `1..3` out of the view of "hello" gives a
view of handle 0 with offset `1..3` and content "el". -/
theorem claim_C3_witness :
    ImString.try_slice ⟨[[104, 101, 108, 108, 111]], [1]⟩ ⟨0, (0, 5)⟩ 1 3 =
      .ok (ImString.slice_unchecked ⟨0, (0, 5)⟩ 1 3) ∧
    ImString.as_bytes ⟨[[104, 101, 108, 108, 111]], [1]⟩
      (ImString.slice_unchecked ⟨0, (0, 5)⟩ 1 3) = [101, 108] := by
  have h := claim_C3_slice_success ⟨[[104, 101, 108, 108, 111]], [1]⟩ ⟨0, (0, 5)⟩ 1 3
    (by decide) (by decide) (by decide) (by decide)
  exact ⟨h.1, by rw [h.2.2.2.1]; decide⟩

/-- C6: `try_slice_ref` (and `try_str_ref`) succeeds if and only if the
candidate's address range lies within the whole backing buffer's address
range, decided purely from start addresses and lengths; on containment the
result shares the handle and its offset is the candidate's position relative
to the buffer start; otherwise the result is `none`, not an error. -/
theorem claim_C6_slice_ref_containment :
    ∀ (st : Store) (bufAddr : Nat) (v : ImString) (cs cl : Nat),
      ((ImString.try_slice_ref st bufAddr v (cs, cl)).isSome = true ↔
        (bufAddr ≤ cs ∧ cs + cl ≤ bufAddr + (Store.get st v.string).length)) ∧
      (∀ w, ImString.try_slice_ref st bufAddr v (cs, cl) = some w →
        w.string = v.string ∧ w.offset = (cs - bufAddr, cs + cl - bufAddr)) ∧
      (¬(bufAddr ≤ cs ∧ cs + cl ≤ bufAddr + (Store.get st v.string).length) →
        ImString.try_slice_ref st bufAddr v (cs, cl) = none) ∧
      ImString.try_str_ref st bufAddr v (cs, cl) =
        ImString.try_slice_ref st bufAddr v (cs, cl) := by
  intro st bufAddr v cs cl
  unfold ImString.try_str_ref ImString.try_slice_ref try_slice_offset
  by_cases h1 : bufAddr ≤ cs
  · by_cases h2 : cs + cl ≤ bufAddr + (Store.get st v.string).length
    · simp [h1, h2]
    · simp [h1, h2]
  · simp [h1]

/-- Witness for C6: for a view whose window is only bytes `1..2` of a 6-byte
buffer at address 100, the candidate at address 103 with length 3 (inside
the buffer but outside the window) is accepted with offset `3..6`, and a
candidate reaching past the buffer is rejected with `none`. -/
theorem claim_C6_witness :
    (ImString.try_slice_ref ⟨[[97, 98, 99, 100, 101, 102]], [1]⟩ 100 ⟨0, (1, 2)⟩
        (103, 3) = some ⟨0, (3, 6)⟩) ∧
    (ImString.try_slice_ref ⟨[[97, 98, 99, 100, 101, 102]], [1]⟩ 100 ⟨0, (1, 2)⟩
        (105, 2) = none) := by
  have h := claim_C6_slice_ref_containment ⟨[[97, 98, 99, 100, 101, 102]], [1]⟩ 100
    ⟨0, (1, 2)⟩ 103 3
  have h' := claim_C6_slice_ref_containment ⟨[[97, 98, 99, 100, 101, 102]], [1]⟩ 100
    ⟨0, (1, 2)⟩ 105 2
  refine ⟨?_, h'.2.2.1 (by decide)⟩
  obtain ⟨w, hx⟩ := Option.isSome_iff_exists.mp (h.1.mpr (by decide))
  have hw := h.2.1 w hx
  rw [hx]
  congr 1
  cases w with
  | mk ws wo =>
    rw [ImString.mk.injEq]
    exact ⟨hw.1, hw.2⟩

/-- C7: fallible operations are atomic: whenever `try_slice` returns an
error or `try_split_off` returns `None`, the receiver view and the store are
left completely unmodified. -/
theorem claim_C7_failure_atomicity :
    ∀ (st : Store) (v : ImString),
      (∀ s e err, (ImString.try_slice_call st v s e).2.2 = .error err →
        ImString.try_slice_call st v s e = (st, v, .error err)) ∧
      (∀ p, (ImString.try_split_off st v p).2.2 = none →
        ImString.try_split_off st v p = (st, v, none)) := by
  intro st v
  constructor
  · intro s e err h
    unfold ImString.try_slice_call at h ⊢
    cases hx : ImString.try_slice st v s e with
    | ok w => rw [hx] at h; simp at h
    | error e' => rw [hx] at h; simp at h ⊢; exact h
  · intro p h
    unfold ImString.try_split_off at h ⊢
    by_cases h1 : p > v.offset.2
    · rw [if_pos h1]
    · rw [if_neg h1] at h ⊢
      by_cases h2 : isCharBoundary (ImString.as_bytes st v) p
      · simp [h2] at h
      · simp only [Bool.not_eq_true] at h2
        simp [h2]

/-- Witness for C7: a failing slice (`2..0` on "h") and a failing split
(position 5 past the end) both leave the receiver and the store untouched. -/
theorem claim_C7_witness :
    ImString.try_slice_call ⟨[[104]], [1]⟩ ⟨0, (0, 1)⟩ 2 0 =
      (⟨[[104]], [1]⟩, ⟨0, (0, 1)⟩, .error .StartOutOfBounds) ∧
    ImString.try_split_off ⟨[[104]], [1]⟩ ⟨0, (0, 1)⟩ 5 =
      (⟨[[104]], [1]⟩, ⟨0, (0, 1)⟩, none) := by
  have h := claim_C7_failure_atomicity ⟨[[104]], [1]⟩ ⟨0, (0, 1)⟩
  exact ⟨h.1 2 0 .StartOutOfBounds rfl, h.2 5 rfl⟩

/-- C8: equality, ordering and hashing of views are functions of the visible
text only: equality holds exactly when the visible bytes agree, comparison
is the lexicographic comparison of the visible bytes, and every hasher is
applied to the visible bytes alone, so equal texts hash identically no
matter the handles or offsets. -/
theorem claim_C8_text_only_equality :
    ∀ (st : Store) (a b : ImString),
      (ImString.eq st a b = true ↔
        ImString.as_bytes st a = ImString.as_bytes st b) ∧
      (ImString.cmp st a b =
        str_cmp (ImString.as_bytes st a) (ImString.as_bytes st b)) ∧
      (∀ {α : Type} (h : Str → α),
        ImString.hash h st a = h (ImString.as_bytes st a)) ∧
      (ImString.as_bytes st a = ImString.as_bytes st b →
        ∀ {α : Type} (h : Str → α), ImString.hash h st a = ImString.hash h st b) ∧
      (ImString.hash (fun s => s) st a = ImString.hash (fun s => s) st b ↔
        ImString.as_bytes st a = ImString.as_bytes st b) := by
  intro st a b
  refine ⟨?_, rfl, fun h => rfl, ?_, Iff.rfl⟩
  · unfold ImString.eq
    exact beq_iff_eq
  · intro he α h
    unfold ImString.hash
    rw [he]

/-- Witness for C8: two views over distinct buffers that both show "x"
(one of them through a narrowed offset) are equal and hash identically. -/
theorem claim_C8_witness :
    ImString.eq ⟨[[120], [97, 120]], [1, 1]⟩ ⟨0, (0, 1)⟩ ⟨1, (1, 2)⟩ = true ∧
    ImString.hash List.length ⟨[[120], [97, 120]], [1, 1]⟩ ⟨0, (0, 1)⟩ =
      ImString.hash List.length ⟨[[120], [97, 120]], [1, 1]⟩ ⟨1, (1, 2)⟩ := by
  have h := claim_C8_text_only_equality ⟨[[120], [97, 120]], [1, 1]⟩ ⟨0, (0, 1)⟩ ⟨1, (1, 2)⟩
  exact ⟨h.1.mpr (by decide), h.2.2.2.1 (by decide) List.length⟩

/-- Frame property of `unchecked_append` on a shared handle: with at least
two references the copy-on-write branch is taken, so no existing buffer is
modified and any view of a live handle keeps its visible text. -/
theorem uncheckedAppendF_shared_frame (f : Str → Option Str) (st : Store)
    (a b : ImString) (r : Store × ImString)
    (h2 : 2 ≤ Store.refOf st b.string) (hlt : a.string < st.bufs.length)
    (h : ImString.uncheckedAppendF f st b = some r) :
    ImString.as_bytes r.1 a = ImString.as_bytes st a := by
  have hg : Store.getMutOk st b.string = false := by
    simp only [Store.getMutOk, beq_eq_false_iff_ne, ne_eq]
    omega
  unfold ImString.uncheckedAppendF at h
  rw [hg] at h
  simp only [Bool.false_and, Bool.false_eq_true, if_false] at h
  cases hf : f (ImString.as_bytes st b) with
  | none => rw [hf] at h; simp at h
  | some nb =>
    rw [hf] at h
    simp only [Option.some.injEq] at h
    rw [← h]
    unfold ImString.as_bytes Store.get Store.decRef
    simp only
    rw [List.getD_append st.bufs [nb] [] a.string hlt]

/-- Success and content of `unchecked_append` on a view satisfying the
offset invariants: the result's visible text is exactly the value `f`
computes from the receiver's visible text, in both the in-place and the
copy-on-write branch. -/
theorem uncheckedAppendF_ok (f : Str → Option Str) (st : Store) (v : ImString) (nb : Str)
    (hlt : v.string < st.bufs.length)
    (hend : v.offset.2 ≤ (Store.get st v.string).length)
    (hb : isCharBoundary (Store.get st v.string) v.offset.2 = true)
    (hf : f (ImString.as_bytes st v) = some nb) :
    ∃ r, ImString.uncheckedAppendF f st v = some r ∧
      ImString.as_bytes r.1 r.2 = nb := by
  by_cases hc : (Store.getMutOk st v.string && v.offset.1 == 0) = true
  · have h0 : v.offset.1 = 0 := beq_iff_eq.mp ((Bool.and_eq_true _ _).mp hc).2
    have ht : stringTruncate (Store.get st v.string) v.offset.2 =
        some (ImString.as_bytes st v) := by
      unfold stringTruncate
      rw [if_pos hend, if_pos hb]
      unfold ImString.as_bytes
      rw [h0, List.drop_zero]
    have heq : ImString.uncheckedAppendF f st v =
        some (Store.setBuf st v.string nb,
              { string := v.string, offset := (0, nb.length) }) := by
      unfold ImString.uncheckedAppendF
      rw [if_pos hc, ht]
      simp only [hf]
    refine ⟨_, heq, ?_⟩
    unfold ImString.as_bytes Store.get Store.setBuf
    simp only
    rw [getD_set_length st.bufs v.string nb [] hlt, List.take_length, List.drop_zero]
  · have heq : ImString.uncheckedAppendF f st v =
        some ({ bufs := (Store.decRef st v.string).bufs ++ [nb],
                refs := (Store.decRef st v.string).refs ++ [1] },
              { string := (Store.decRef st v.string).bufs.length,
                offset := (0, nb.length) }) := by
      unfold ImString.uncheckedAppendF
      rw [if_neg hc]
      simp only [hf]
    refine ⟨_, heq, ?_⟩
    unfold ImString.as_bytes Store.get Store.decRef
    simp only
    rw [getD_append_length st.bufs nb [], List.take_length, List.drop_zero]

/-- C1: when two views share a storage handle (so the handle holds at least
two references), every mutation operation applied to one of them — `insert`,
`insert_str`, `push`, `push_str`, `truncate`, `clear` — leaves the visible
text of the other unchanged; in particular pushing " world" onto a clone of
the view of "hello" leaves the original showing "hello" and the clone
showing "hello world". -/
theorem claim_C1_cow_isolation :
    (∀ (st : Store) (a b : ImString), a.string = b.string →
      2 ≤ Store.refOf st b.string → a.string < st.bufs.length →
      ((∀ i c r, ImString.insert i c st b = some r →
          ImString.as_bytes r.1 a = ImString.as_bytes st a) ∧
       (∀ i t r, ImString.insert_str i t st b = some r →
          ImString.as_bytes r.1 a = ImString.as_bytes st a) ∧
       (∀ c r, ImString.push c st b = some r →
          ImString.as_bytes r.1 a = ImString.as_bytes st a) ∧
       (∀ t r, ImString.push_str t st b = some r →
          ImString.as_bytes r.1 a = ImString.as_bytes st a) ∧
       (∀ n r, ImString.truncate n st b = some r →
          ImString.as_bytes r.1 a = ImString.as_bytes st a) ∧
       ImString.as_bytes (ImString.clear st b).1 a = ImString.as_bytes st a)) ∧
    (ImString.from_std_string [104, 101, 108, 108, 111] ⟨[], []⟩ =
        (⟨[[104, 101, 108, 108, 111]], [1]⟩, ⟨0, (0, 5)⟩) ∧
     ImString.clone ⟨[[104, 101, 108, 108, 111]], [1]⟩ ⟨0, (0, 5)⟩ =
        (⟨[[104, 101, 108, 108, 111]], [2]⟩, ⟨0, (0, 5)⟩) ∧
     ImString.push_str [32, 119, 111, 114, 108, 100]
        ⟨[[104, 101, 108, 108, 111]], [2]⟩ ⟨0, (0, 5)⟩ =
        some (⟨[[104, 101, 108, 108, 111],
                [104, 101, 108, 108, 111, 32, 119, 111, 114, 108, 100]], [1, 1]⟩,
              ⟨1, (0, 11)⟩) ∧
     ImString.as_bytes
        ⟨[[104, 101, 108, 108, 111],
          [104, 101, 108, 108, 111, 32, 119, 111, 114, 108, 100]], [1, 1]⟩
        ⟨0, (0, 5)⟩ = [104, 101, 108, 108, 111] ∧
     ImString.as_bytes
        ⟨[[104, 101, 108, 108, 111],
          [104, 101, 108, 108, 111, 32, 119, 111, 114, 108, 100]], [1, 1]⟩
        ⟨1, (0, 11)⟩ = [104, 101, 108, 108, 111, 32, 119, 111, 114, 108, 100]) := by
  constructor
  · intro st a b hab h2 hlt
    have hg : Store.getMutOk st b.string = false := by
      simp only [Store.getMutOk, beq_eq_false_iff_ne, ne_eq]
      omega
    refine ⟨fun i c r h => uncheckedAppendF_shared_frame _ st a b r h2 hlt h,
            fun i t r h => uncheckedAppendF_shared_frame _ st a b r h2 hlt h,
            fun c r h => uncheckedAppendF_shared_frame _ st a b r h2 hlt h,
            fun t r h => uncheckedAppendF_shared_frame _ st a b r h2 hlt h,
            ?_, ?_⟩
    · intro n r h
      unfold ImString.truncate at h
      rw [hg] at h
      simp only [Bool.false_eq_true, if_false, Option.some.injEq] at h
      rw [← h]
    · unfold ImString.clear
      rw [hg]
      simp
  · exact ⟨rfl, rfl, rfl, rfl, rfl⟩

/-- Witness for C1: applying the isolation theorem to the clone of "hello"
with " world" pushed onto it. -/
theorem claim_C1_witness :
    ImString.as_bytes
      ⟨[[104, 101, 108, 108, 111],
        [104, 101, 108, 108, 111, 32, 119, 111, 114, 108, 100]], [1, 1]⟩
      ⟨0, (0, 5)⟩ =
    ImString.as_bytes ⟨[[104, 101, 108, 108, 111]], [2]⟩ ⟨0, (0, 5)⟩ := by
  have h := (claim_C1_cow_isolation.1 ⟨[[104, 101, 108, 108, 111]], [2]⟩
    ⟨0, (0, 5)⟩ ⟨0, (0, 5)⟩ rfl (by decide) (by decide)).2.2.2.1
  exact h [32, 119, 111, 114, 108, 100]
    (⟨[[104, 101, 108, 108, 111],
       [104, 101, 108, 108, 111, 32, 119, 111, 114, 108, 100]], [1, 1]⟩, ⟨1, (0, 11)⟩) rfl

/-- C10: on any view satisfying the offset invariants — including views
whose window hides bytes of the backing buffer before `offset.start` or
after `offset.end` — `push_str` appends exactly the pushed bytes to the
visible text and `push` appends exactly the character's UTF-8 encoding;
hidden bytes never leak because the append path first truncates (in place)
or copies (copy-on-write) the buffer down to the visible window. -/
theorem claim_C10_append_appends :
    ∀ (st : Store) (v : ImString),
      v.string < st.bufs.length →
      v.offset.2 ≤ (Store.get st v.string).length →
      isCharBoundary (Store.get st v.string) v.offset.2 = true →
      (∀ t, ∃ r, ImString.push_str t st v = some r ∧
        ImString.as_bytes r.1 r.2 = ImString.as_bytes st v ++ t) ∧
      (∀ c, ∃ r, ImString.push c st v = some r ∧
        ImString.as_bytes r.1 r.2 = ImString.as_bytes st v ++ utf8Encode c) := by
  intro st v hlt hend hb
  constructor
  · intro t
    exact uncheckedAppendF_ok (fun s => some (s ++ t)) st v
      (ImString.as_bytes st v ++ t) hlt hend hb rfl
  · intro c
    exact uncheckedAppendF_ok (fun s => some (s ++ utf8Encode c)) st v
      (ImString.as_bytes st v ++ utf8Encode c) hlt hend hb rfl

/-- Witness for C10: a uniquely-owned buffer "hello!" viewed only through
window `0..5`; pushing "X" yields visible text "helloX" — the hidden byte
"!" does not leak. -/
theorem claim_C10_witness :
    ∃ r, ImString.push_str [88] ⟨[[104, 101, 108, 108, 111, 33]], [1]⟩ ⟨0, (0, 5)⟩ =
        some r ∧
      ImString.as_bytes r.1 r.2 = [104, 101, 108, 108, 111, 88] :=
  (claim_C10_append_appends ⟨[[104, 101, 108, 108, 111, 33]], [1]⟩ ⟨0, (0, 5)⟩
    (by decide) (by decide) (by decide)).1 [88]

/-- C4 (code bug): on the view "lo world" (offset `3..11` of "hello world"),
`try_split_off(5)` succeeds — the relative boundary check passes — but the
offsets are updated with `position` taken as an absolute buffer position:
the receiver is left showing "lo" (bytes `3..5`) instead of the first five
visible bytes "lo wo", and the returned view shows " world" (bytes `5..11`)
instead of the remainder "rld". -/
theorem claim_C4_split_off_bug :
    ImString.try_split_off
        ⟨[[104, 101, 108, 108, 111, 32, 119, 111, 114, 108, 100]], [1]⟩
        ⟨0, (3, 11)⟩ 5 =
      (⟨[[104, 101, 108, 108, 111, 32, 119, 111, 114, 108, 100]], [2]⟩,
       ⟨0, (3, 5)⟩, some ⟨0, (5, 11)⟩) ∧
    ImString.as_bytes ⟨[[104, 101, 108, 108, 111, 32, 119, 111, 114, 108, 100]], [2]⟩
      ⟨0, (3, 5)⟩ = [108, 111] ∧
    ImString.as_bytes ⟨[[104, 101, 108, 108, 111, 32, 119, 111, 114, 108, 100]], [2]⟩
      ⟨0, (5, 11)⟩ = [32, 119, 111, 114, 108, 100] ∧
    (ImString.as_bytes ⟨[[104, 101, 108, 108, 111, 32, 119, 111, 114, 108, 100]], [1]⟩
      ⟨0, (3, 11)⟩).take 5 = [108, 111, 32, 119, 111] ∧
    (ImString.as_bytes ⟨[[104, 101, 108, 108, 111, 32, 119, 111, 114, 108, 100]], [1]⟩
      ⟨0, (3, 11)⟩).drop 5 = [114, 108, 100] ∧
    ([108, 111] : Str) ≠ [108, 111, 32, 119, 111] ∧
    ([32, 119, 111, 114, 108, 100] : Str) ≠ [114, 108, 100] :=
  ⟨rfl, rfl, rfl, rfl, rfl, by decide, by decide⟩

/-- C5 (code bug): starting from the constructor on "é" (bytes 195, 169)
and a clone — both reachable public operations — the shared view satisfies
the offset invariant, yet `truncate(1)` returns successfully with
`offset = 0..1`, whose end lies inside the two-byte character and therefore
violates the documented invariant that the offset always points at a valid
UTF-8 region of the backing string. -/
theorem claim_C5_truncate_invariant_bug :
    ImString.from_std_string [195, 169] ⟨[], []⟩ =
      (⟨[[195, 169]], [1]⟩, ⟨0, (0, 2)⟩) ∧
    ImString.clone ⟨[[195, 169]], [1]⟩ ⟨0, (0, 2)⟩ =
      (⟨[[195, 169]], [2]⟩, ⟨0, (0, 2)⟩) ∧
    validView ⟨[[195, 169]], [2]⟩ ⟨0, (0, 2)⟩ = true ∧
    ImString.truncate 1 ⟨[[195, 169]], [2]⟩ ⟨0, (0, 2)⟩ =
      some (⟨[[195, 169]], [2]⟩, ⟨0, (0, 1)⟩) ∧
    validView ⟨[[195, 169]], [2]⟩ ⟨0, (0, 1)⟩ = false :=
  ⟨rfl, rfl, rfl, rfl, rfl⟩

/-! Helper lemmas about the line-splitting segment structure. -/

theorem getLast?_cons_ne {α : Type} (x : α) (l : List α) (h : l ≠ []) :
    (x :: l).getLast? = l.getLast? := by
  cases l with
  | nil => exact absurd rfl h
  | cons c t => exact List.getLast?_cons_cons

theorem split_segs_ne_nil : ∀ (s : Str) (a p : Nat), split_segs s a p ≠ []
  | [], a, p => by simp [split_segs]
  | b :: rest, a, p => by
    unfold split_segs
    by_cases hb : (b == 10) = true
    · rw [if_pos hb]
      simp
    · rw [if_neg hb]
      exact split_segs_ne_nil rest a (p + 1)

theorem split_segs_append_nl : ∀ (s : Str) (a p : Nat),
    split_segs (s ++ [10]) a p =
      split_segs s a p ++ [(p + s.length + 1, p + s.length + 1)]
  | [], a, p => by simp [split_segs]
  | b :: rest, a, p => by
    show split_segs (b :: (rest ++ [10])) a p = _
    by_cases hb : (b == 10) = true
    · have h1 : split_segs (b :: (rest ++ [10])) a p =
          (a, p) :: split_segs (rest ++ [10]) (p + 1) (p + 1) := by
        simp only [split_segs]
        rw [if_pos hb]
      have h2 : split_segs (b :: rest) a p =
          (a, p) :: split_segs rest (p + 1) (p + 1) := by
        simp only [split_segs]
        rw [if_pos hb]
      rw [h1, h2, split_segs_append_nl rest (p + 1) (p + 1), List.cons_append]
      have harith : p + 1 + rest.length + 1 = p + (b :: rest).length + 1 := by
        simp only [List.length_cons]
        omega
      rw [harith]
    · have h1 : split_segs (b :: (rest ++ [10])) a p =
          split_segs (rest ++ [10]) a (p + 1) := by
        simp only [split_segs]
        rw [if_neg hb]
      have h2 : split_segs (b :: rest) a p = split_segs rest a (p + 1) := by
        simp only [split_segs]
        rw [if_neg hb]
      rw [h1, h2, split_segs_append_nl rest a (p + 1)]
      have harith : p + 1 + rest.length + 1 = p + (b :: rest).length + 1 := by
        simp only [List.length_cons]
        omega
      rw [harith]

theorem split_segs_getLast_pos : ∀ (s : Str) (a p : Nat), a ≤ p → s ≠ [] →
    s.getLast? ≠ some 10 → ∀ r, (split_segs s a p).getLast? = some r → r.1 < r.2
  | [], _, _, _, hne, _, _ => absurd rfl hne
  | [b], a, p, hap, _, hlast, r => by
    have hb : (b == 10) = false := by
      rw [List.getLast?_singleton] at hlast
      exact beq_eq_false_iff_ne.mpr (fun hc => hlast (by rw [hc]))
    unfold split_segs
    rw [hb]
    simp only [Bool.false_eq_true, if_false, split_segs, List.getLast?_singleton,
      Option.some.injEq]
    intro h
    rw [← h]
    omega
  | b :: c :: t, a, p, hap, _, hlast, r => by
    have hne2 : (c :: t) ≠ [] := by simp
    have hlast2 : (c :: t).getLast? ≠ some 10 := by
      rwa [List.getLast?_cons_cons] at hlast
    unfold split_segs
    by_cases hb : (b == 10) = true
    · rw [if_pos hb, getLast?_cons_ne _ _ (split_segs_ne_nil (c :: t) (p + 1) (p + 1))]
      exact split_segs_getLast_pos (c :: t) (p + 1) (p + 1) (Nat.le_refl _) hne2 hlast2 r
    · rw [if_neg hb]
      exact split_segs_getLast_pos (c :: t) a (p + 1)
        (Nat.le_trans hap (Nat.le_succ _)) hne2 hlast2 r

theorem split_segs_mem_bounds : ∀ (s : Str) (a p : Nat), a ≤ p →
    ∀ r ∈ split_segs s a p, a ≤ r.1 ∧ r.1 ≤ r.2 ∧ r.2 ≤ p + s.length
  | [], a, p, hap, r, hr => by
    simp only [split_segs, List.mem_singleton] at hr
    rw [hr]
    simp only [List.length_nil]
    omega
  | b :: rest, a, p, hap, r, hr => by
    unfold split_segs at hr
    by_cases hb : (b == 10) = true
    · rw [if_pos hb] at hr
      rcases List.mem_cons.mp hr with h | h
      · rw [h]
        simp only [List.length_cons]
        omega
      · have := split_segs_mem_bounds rest (p + 1) (p + 1) (Nat.le_refl _) r h
        simp only [List.length_cons]
        omega
    · rw [if_neg hb] at hr
      have := split_segs_mem_bounds rest a (p + 1) (by omega) r hr
      simp only [List.length_cons]
      omega

theorem split_term_eq_segs (s : Str) (hne : s ≠ []) (hlast : s.getLast? ≠ some 10) :
    split_term_ranges s = split_segs s 0 0 := by
  have hnnil := split_segs_ne_nil s 0 0
  have hrl := List.getLast?_eq_getLast (split_segs s 0 0) hnnil
  have hpos := split_segs_getLast_pos s 0 0 (Nat.le_refl 0) hne hlast _ hrl
  have hc : (((split_segs s 0 0).getLast hnnil).1 ==
      ((split_segs s 0 0).getLast hnnil).2) = false :=
    beq_eq_false_iff_ne.mpr (Nat.ne_of_lt hpos)
  unfold split_term_ranges
  simp only [hrl, hc, Bool.false_eq_true, if_false]

theorem split_term_append_nl (s : Str) :
    split_term_ranges (s ++ [10]) = split_segs s 0 0 := by
  unfold split_term_ranges
  rw [split_segs_append_nl s 0 0]
  simp [List.getLast?_concat, List.dropLast_concat]

theorem getLast?_eq_getD (s : Str) (h : s ≠ []) :
    s.getLast? = some (s.getD (s.length - 1) 0) := by
  have hlt : s.length - 1 < s.length := by
    have := List.length_pos.mpr h
    omega
  rw [List.getLast?_eq_getElem?, List.getD_eq_getElem?_getD, List.getElem?_eq_getElem hlt]
  rfl

theorem line_ranges_append_nl (s : Str) (hne : s ≠ []) (h10 : s.getLast? ≠ some 10)
    (h13 : s.getLast? ≠ some 13) :
    line_ranges (s ++ [10]) = line_ranges s := by
  have hlen0 : 0 < s.length := List.length_pos.mpr hne
  unfold line_ranges
  rw [split_term_append_nl s, split_term_eq_segs s hne h10]
  apply List.map_congr_left
  intro r hr
  by_cases hcase : r.2 < s.length
  · rw [List.getD_append s [10] 0 r.2 hcase,
      List.getD_append s [10] 0 (r.2 - 1) (by omega)]
  · have hb := split_segs_mem_bounds s 0 0 (Nat.le_refl 0) r hr
    have hr2 : r.2 = s.length := by omega
    have e1 : (s ++ [10]).getD r.2 0 = 10 := by
      rw [hr2]
      exact getD_append_length s 10 0
    have e2 : s.getD r.2 0 = 0 := by
      rw [hr2]
      exact List.getD_eq_default s 0 (Nat.le_refl _)
    have e3 : ((s ++ [10]).getD (r.2 - 1) 0 == 13) = false := by
      rw [hr2, List.getD_append s [10] 0 (s.length - 1) (by omega)]
      refine beq_eq_false_iff_ne.mpr (fun hcon => h13 ?_)
      rw [getLast?_eq_getD s hne, hcon]
    rw [e1, e2, e3]
    simp

theorem split_term_subset (s : Str) : ∀ r ∈ split_term_ranges s, r ∈ split_segs s 0 0 := by
  intro r hr
  unfold split_term_ranges at hr
  cases hx : (split_segs s 0 0).getLast? with
  | none => simp only [hx] at hr; exact hr
  | some rl =>
    simp only [hx] at hr
    by_cases hc : (rl.1 == rl.2) = true
    · rw [if_pos hc] at hr
      exact (List.dropLast_sublist (split_segs s 0 0)).mem hr
    · rw [if_neg hc] at hr
      exact hr

theorem line_ranges_bounds (s : Str) :
    ∀ r ∈ line_ranges s, r.1 ≤ r.2 ∧ r.2 ≤ s.length := by
  intro r hr
  unfold line_ranges at hr
  obtain ⟨r0, hr0, hmap⟩ := List.mem_map.mp hr
  have hmem := split_term_subset s r0 hr0
  have hb := split_segs_mem_bounds s 0 0 (Nat.le_refl 0) r0 hmem
  by_cases hc : (decide (r0.1 < r0.2) && s.getD r0.2 0 == 10 &&
      s.getD (r0.2 - 1) 0 == 13) = true
  · rw [if_pos hc] at hmap
    have hlt : r0.1 < r0.2 :=
      of_decide_eq_true ((Bool.and_eq_true _ _).mp ((Bool.and_eq_true _ _).mp hc).1).1
    rw [← hmap]
    simp only
    omega
  · rw [if_neg hc] at hmap
    rw [← hmap]
    omega

theorem line_contents_append_nl (s : Str) (hne : s ≠ []) (h10 : s.getLast? ≠ some 10)
    (h13 : s.getLast? ≠ some 13) :
    line_contents (s ++ [10]) = line_contents s := by
  unfold line_contents
  rw [line_ranges_append_nl s hne h10 h13]
  apply List.map_congr_left
  intro r hr
  have hb := line_ranges_bounds s r hr
  unfold extractBytes
  rw [List.take_append_of_le_length hb.2]

theorem lines_content (st : Store) (v : ImString) :
    (ImString.lines st v).map (ImString.as_bytes st) =
      line_contents (ImString.as_bytes st v) := by
  unfold ImString.lines line_contents
  rw [List.map_map]
  apply List.map_congr_left
  intro r hr
  have hb := line_ranges_bounds (ImString.as_bytes st v) r hr
  have hlen : (ImString.as_bytes st v).length ≤ v.offset.2 - v.offset.1 := by
    unfold ImString.as_bytes
    simp [List.length_drop, List.length_take]
    omega
  show ((Store.get st v.string).take (v.offset.1 + r.2)).drop (v.offset.1 + r.1) =
    extractBytes (ImString.as_bytes st v) r
  unfold extractBytes ImString.as_bytes
  exact slice_content_eq (Store.get st v.string) v.offset.1 v.offset.2 r.1 r.2 (by omega)

/-- C9 (amended): `lines()` yields, in order, one sub-view per line of the
visible text, splitting on newline or carriage-return-plus-newline with
terminators excluded, and each yielded view shares the source view's handle;
a single trailing terminator produces no extra empty line provided the text
before it is nonempty and does not itself end in a newline or carriage
return (appending one terminator to such a text yields the same lines);
over "a\nb\r\nc" the iterator yields exactly the views "a", "b", "c". -/
theorem claim_C9_lines_amended :
    (∀ (st : Store) (v w : ImString), w ∈ ImString.lines st v →
      w.string = v.string) ∧
    (∀ (st : Store) (v : ImString),
      (ImString.lines st v).map (ImString.as_bytes st) =
        line_contents (ImString.as_bytes st v)) ∧
    (∀ s : Str, s ≠ [] → s.getLast? ≠ some 10 → s.getLast? ≠ some 13 →
      line_contents (s ++ [10]) = line_contents s) ∧
    (ImString.lines ⟨[[97, 10, 98, 13, 10, 99]], [1]⟩ ⟨0, (0, 6)⟩ =
        [⟨0, (0, 1)⟩, ⟨0, (2, 3)⟩, ⟨0, (5, 6)⟩] ∧
     (ImString.lines ⟨[[97, 10, 98, 13, 10, 99]], [1]⟩ ⟨0, (0, 6)⟩).map
        (ImString.as_bytes ⟨[[97, 10, 98, 13, 10, 99]], [1]⟩) =
        [[97], [98], [99]]) := by
  refine ⟨?_, lines_content, line_contents_append_nl, rfl, rfl⟩
  intro st v w hw
  obtain ⟨r, hr, hrw⟩ := List.mem_map.mp hw
  rw [← hrw]

/-- Counterexample for C9 as stated: the view of the one-byte text made of a
single newline yields one (empty) line, while the view of the empty text
yields no lines, so a string ending with a final line terminator does not
always yield the same lines as the same string without that terminator. -/
theorem claim_C9_counterexample :
    (ImString.lines ⟨[[10]], [1]⟩ ⟨0, (0, 1)⟩).map
      (ImString.as_bytes ⟨[[10]], [1]⟩) = [[]] ∧
    (ImString.lines ⟨[[]], [1]⟩ ⟨0, (0, 0)⟩).map
      (ImString.as_bytes ⟨[[]], [1]⟩) = [] ∧
    ([10] : Str) = [] ++ [10] ∧
    ([[]] : List Str) ≠ [] :=
  ⟨rfl, rfl, rfl, by decide⟩

/-- Witness for C9: the amended trailing-terminator law applied to "a"
(appending a newline yields the same single line), and the handle-sharing
law applied to the first line of "a\nb\r\nc". -/
theorem claim_C9_witness :
    line_contents ([97] ++ [10]) = line_contents [97] ∧
    ImString.string ⟨0, (0, 1)⟩ = ImString.string (⟨0, (0, 6)⟩ : ImString) := by
  refine ⟨claim_C9_lines_amended.2.2.1 [97] (by decide) (by decide) (by decide), ?_⟩
  exact claim_C9_lines_amended.1 ⟨[[97, 10, 98, 13, 10, 99]], [1]⟩ ⟨0, (0, 6)⟩
    ⟨0, (0, 1)⟩ (by decide)
